import Mathlib

/-!
Verification of the versioning and dependence-closing core declared in
src/runtime/legion/legion_analysis.h.

Field masks are modelled as finite sets of field identifiers (the source's
FieldMask is a fixed-universe bit-set with intersection, union, subtraction
and emptiness tests, which is exactly the Finset algebra used here).

The source file is a header: a few operations are defined inline there
(LogicalCloser::has_close_operations, VersionInfo::get_depth,
VersioningSet::empty, VersioningSet::get_valid_mask, the VersioningSet
iterator, VersionManager::init_version) and are translated directly.
Operations whose bodies live outside this header are modelled from the
specification, and each such definition carries a doc comment starting
with: Modelled from the spec.
-/

/-- A field mask: a finite set of field identifiers.  Embeds the source's
fixed-universe bit-set FieldMask with its mask algebra. -/
abbrev FieldMask := Finset ℕ

/-! ## LogicalCloser (legion_analysis.h lines 909-1010) -/

/-- The accumulation state of a LogicalCloser: the field-mask categories it
gathers across one traversal (source lines 979-989). -/
structure LogicalCloser where
  normal_close_mask : FieldMask
  read_only_close_mask : FieldMask
  flush_only_close_mask : FieldMask
  overwriting_close_mask : FieldMask
  disjoint_close_mask : FieldMask
  closed_projections : FieldMask
  complete_writes : FieldMask
deriving DecidableEq

/-- A freshly constructed LogicalCloser: all masks empty. -/
def initial_closer : LogicalCloser :=
  ⟨∅, ∅, ∅, ∅, ∅, ∅, ∅⟩

/-- LogicalCloser::has_close_operations, translated from the inline body at
source lines 918-920: true iff one of the normal, read-only, flush-only or
disjoint close masks is non-empty. -/
def LogicalCloser.has_close_operations (c : LogicalCloser) : Bool :=
  decide (c.normal_close_mask ≠ ∅) || decide (c.read_only_close_mask ≠ ∅) ||
    decide (c.flush_only_close_mask ≠ ∅) || decide (c.disjoint_close_mask ≠ ∅)

/-- Modelled from the spec: LogicalCloser::record_close_operation (declared at
source line 922, body not in this header) accumulates a normal close by
unioning the mask into the normal-close category. -/
def record_close_operation (c : LogicalCloser) (mask : FieldMask) : LogicalCloser :=
  { c with normal_close_mask := c.normal_close_mask ∪ mask }

/-- Modelled from the spec: LogicalCloser::record_projection_close (declared at
source line 923) accumulates a close of a projection field state, into the
disjoint-close category when only a disjoint subset of children needs closing
and into the normal category otherwise, recording the closed projection
fields either way. -/
def record_projection_close (c : LogicalCloser) (mask : FieldMask)
    (disjoint_close : Bool) : LogicalCloser :=
  if disjoint_close then
    { c with disjoint_close_mask := c.disjoint_close_mask ∪ mask,
             closed_projections := c.closed_projections ∪ mask }
  else
    { c with normal_close_mask := c.normal_close_mask ∪ mask,
             closed_projections := c.closed_projections ∪ mask }

/-- Modelled from the spec: LogicalCloser::record_overwriting_close (declared
at source line 925) records fields being closed only because they are about to
be overwritten without being read; it accumulates into the overwriting mask
(and the closed-projection fields for projection states), not into any of the
four close-operation categories. -/
def record_overwriting_close (c : LogicalCloser) (mask : FieldMask)
    (projection : Bool) : LogicalCloser :=
  { c with overwriting_close_mask := c.overwriting_close_mask ∪ mask,
           closed_projections :=
             if projection then c.closed_projections ∪ mask
             else c.closed_projections }

/-- Modelled from the spec: LogicalCloser::record_read_only_close (declared at
source line 926) accumulates a read-only close (visibility ordering only, no
data movement). -/
def record_read_only_close (c : LogicalCloser) (mask : FieldMask)
    (projection : Bool) : LogicalCloser :=
  { c with read_only_close_mask := c.read_only_close_mask ∪ mask,
           closed_projections :=
             if projection then c.closed_projections ∪ mask
             else c.closed_projections }

/-- Modelled from the spec: LogicalCloser::record_flush_only_close (declared at
source line 927) accumulates a flush-only close (pending reductions must be
flushed). -/
def record_flush_only_close (c : LogicalCloser) (mask : FieldMask) : LogicalCloser :=
  { c with flush_only_close_mask := c.flush_only_close_mask ∪ mask }

/-- One recorded close request handed to the closer during a traversal. -/
inductive CloseRecord
  | close (mask : FieldMask)
  | projectionClose (mask : FieldMask) (disjoint_close : Bool)
  | overwritingClose (mask : FieldMask) (projection : Bool)
  | readOnlyClose (mask : FieldMask) (projection : Bool)
  | flushOnlyClose (mask : FieldMask)

/-- Dispatch one close record to the corresponding record method. -/
def apply_close_record (c : LogicalCloser) : CloseRecord → LogicalCloser
  | CloseRecord.close mask => record_close_operation c mask
  | CloseRecord.projectionClose mask d => record_projection_close c mask d
  | CloseRecord.overwritingClose mask p => record_overwriting_close c mask p
  | CloseRecord.readOnlyClose mask p => record_read_only_close c mask p
  | CloseRecord.flushOnlyClose mask => record_flush_only_close c mask

/-- The four close-operation categories a LogicalCloser can synthesize; the
source reserves exactly one operation slot per category (normal_close_op,
read_only_close_op, flush_only_close_op, index_close_op for disjoint closes;
source lines 996-1000). -/
inductive CloseCategory
  | normal
  | readOnly
  | flushOnly
  | disjointClose
deriving DecidableEq

/-- Modelled from the spec: LogicalCloser::initialize_close_operations
(declared at source line 939) synthesizes the close operations for the whole
traversal, one per category whose accumulated mask is non-empty. -/
def initialize_close_operations (c : LogicalCloser) : List CloseCategory :=
  (if c.normal_close_mask ≠ ∅ then [CloseCategory.normal] else []) ++
  (if c.read_only_close_mask ≠ ∅ then [CloseCategory.readOnly] else []) ++
  (if c.flush_only_close_mask ≠ ∅ then [CloseCategory.flushOnly] else []) ++
  (if c.disjoint_close_mask ≠ ∅ then [CloseCategory.disjointClose] else [])

/-! ## VersionInfo and PhysicalState (legion_analysis.h lines 213-299, 1012-1077) -/

/-- A physical state: the per-node merge buffer of version-state contents
(source lines 1059-1074): dirty/reduction masks and valid/reduction view maps.
Views are identified by numeric ids. -/
structure PhysicalState where
  dirty_mask : FieldMask
  reduction_mask : FieldMask
  valid_views : List (ℕ × FieldMask)
  reduction_views : List (ℕ × FieldMask)
deriving DecidableEq

/-- Field versions at one depth: version number to field mask
(source line 186). -/
abbrev FieldVersions := List (ℕ × FieldMask)

/-- VersionInfo (source lines 293-298): the upper bound node and, indexed by
depth, the physical states, field-version maps, and split masks. -/
structure VersionInfo where
  upper_bound_node : ℕ
  physical_states : List PhysicalState
  field_versions : List FieldVersions
  split_masks : List FieldMask
deriving DecidableEq

/-- The number of values of the C++ type size_t: arithmetic on sizes is
performed modulo this constant in release builds. -/
def SIZE_T_CARD : ℕ := 2 ^ 64

/-- VersionInfo::get_depth, translated from the inline body at source lines
238-243: the release-build expression physical_states.size() - 1 evaluated in
size_t arithmetic (so an empty vector underflows to SIZE_T_CARD - 1). -/
def VersionInfo.get_depth (v : VersionInfo) : ℕ :=
  (v.physical_states.length + (SIZE_T_CARD - 1)) % SIZE_T_CARD

/-- The debug-build assertion guarding VersionInfo::get_depth (source line
240): the physical-state vector must be non-empty. -/
def VersionInfo.get_depth_assertion (v : VersionInfo) : Prop :=
  v.physical_states ≠ []

/-- Concrete VersionInfo used to witness the get_depth precondition. -/
def version_info_example : VersionInfo :=
  ⟨0, [⟨∅, ∅, [], []⟩], [[(1, {0})]], [∅]⟩

/-! ## VersionManager (legion_analysis.h lines 1079-1299) -/

/-- Entries of a current- or previous-version map: version number to the mask
of fields at that version (the field union of a ManagerVersions set, source
lines 1272-1273). -/
abbrev VersionEntries := List (ℕ × FieldMask)

/-- Insert a (key, mask) pair into an association list of masks, unioning with
the mask already stored under the key when present. -/
def addEntry {κ : Type} [DecidableEq κ] :
    List (κ × FieldMask) → κ → FieldMask → List (κ × FieldMask)
  | [], k, m => [(k, m)]
  | p :: rest, k, m =>
    if p.1 = k then (p.1, p.2 ∪ m) :: rest
    else p :: addEntry rest k m

/-- Look up the mask stored under a key in an association list of masks
(empty mask when absent). -/
def lookupEntry {κ : Type} [DecidableEq κ] :
    List (κ × FieldMask) → κ → FieldMask
  | [], _ => ∅
  | p :: rest, k => if p.1 = k then p.2 else lookupEntry rest k

/-- The union of all field masks appearing in a version map: the fields that
currently have a version state. -/
def versionedFields (infos : VersionEntries) : FieldMask :=
  infos.foldr (fun p acc => p.2 ∪ acc) ∅

/-- Drop entries whose mask has become empty. -/
def filterEmptyEntries (infos : VersionEntries) : VersionEntries :=
  infos.filter (fun p => p.2 ≠ ∅)

/-- VersionManager::ProjectionEpoch (source lines 1093-1111): the
(logical-context id, projection-epoch id) pair used to deduplicate opens and
advances. -/
structure VersionManager.ProjectionEpoch where
  logical_ctx_id : ℕ
  epoch_id : ℕ
deriving DecidableEq

/-- The version-number bookkeeping of a VersionManager (source lines
1272-1296): the current and previous version maps and the recorded previous
advancers used for deduplication. -/
structure VersionManager where
  current_version_infos : VersionEntries
  previous_version_infos : VersionEntries
  previous_advancers : List (VersionManager.ProjectionEpoch × FieldMask)
deriving DecidableEq

/-- VersionManager::init_version, translated from source line 1130: the
version number given to never-before-versioned fields. -/
def VersionManager.init_version : ℕ := 1

/-- A freshly constructed VersionManager: no version state exists yet. -/
def initial_manager : VersionManager := ⟨[], [], []⟩

/-- Modelled from the spec: VersionManager::find_or_create_unversioned_states
(declared at source lines 1247-1249, body not in this header) creates an
initial version state, with version number init_version, covering exactly the
requested fields that have no version state yet; it never fails. -/
def find_or_create_unversioned_states (m : VersionManager)
    (unversioned : FieldMask) : VersionManager :=
  let missing := unversioned \ versionedFields m.current_version_infos
  if missing = ∅ then m
  else { m with current_version_infos :=
           addEntry m.current_version_infos VersionManager.init_version missing }

/-- Modelled from the spec: VersionManager::record_current_versions (declared
at source lines 1150-1156) determines which requested fields are unversioned
(no version state exists yet), creates the initial version state for them, and
reports the unversioned mask; unversioned fields are not an error. -/
def record_current_versions (m : VersionManager) (version_mask : FieldMask) :
    VersionManager × FieldMask :=
  let unversioned := version_mask \ versionedFields m.current_version_infos
  (find_or_create_unversioned_states m unversioned, unversioned)

/-- Modelled from the spec: VersionManager::record_path_only_versions
(declared at source lines 1167-1174) handles unversioned fields exactly as
record_current_versions does: it creates the initial version state for them
rather than failing. -/
def record_path_only_versions (m : VersionManager) (version_mask : FieldMask) :
    VersionManager × FieldMask :=
  let unversioned := version_mask \ versionedFields m.current_version_infos
  (find_or_create_unversioned_states m unversioned, unversioned)

/-- Modelled from the spec: the core of VersionManager::advance_versions
(declared at source lines 1175-1186): for the advanced fields, current version
states are demoted to previous and the next version number is created; fields
of the mask with no version state yet get the initial version number. -/
def advance_core (m : VersionManager) (mask : FieldMask) : VersionManager :=
  let stay :=
    filterEmptyEntries (m.current_version_infos.map (fun p => (p.1, p.2 \ mask)))
  let adv :=
    filterEmptyEntries (m.current_version_infos.map (fun p => (p.1 + 1, p.2 ∩ mask)))
  let demoted :=
    filterEmptyEntries (m.current_version_infos.map (fun p => (p.1, p.2 ∩ mask)))
  let missing := mask \ versionedFields m.current_version_infos
  let created :=
    if missing = ∅ then [] else [(VersionManager.init_version, missing)]
  { m with
    current_version_infos := stay ++ adv ++ created,
    previous_version_infos :=
      demoted.foldl (fun acc p => addEntry acc p.1 p.2) m.previous_version_infos }

/-- Modelled from the spec: VersionManager::advance_versions (declared at
source lines 1175-1186) with the dedup_advances path: advances for the same
(logical-context id, projection-epoch id) pair are deduplicated through
previous_advancers, so fields already advanced under that key are filtered out
and a fully duplicated request is a no-op. -/
def advance_versions (m : VersionManager) (logical_ctx : ℕ) (mask : FieldMask)
    (dedup_advances : Bool) (advance_epoch : ℕ) : VersionManager :=
  if dedup_advances then
    let key : VersionManager.ProjectionEpoch := ⟨logical_ctx, advance_epoch⟩
    let prior := lookupEntry m.previous_advancers key
    let todo := mask \ prior
    if todo = ∅ then m
    else
      { advance_core m todo with
        previous_advancers := addEntry m.previous_advancers key todo }
  else advance_core m mask

/-- Modelled from the spec: VersionManager::invalidate_version_infos (declared
at source line 1192) filters the invalidated fields out of the current and
previous version maps. -/
def invalidate_version_infos (m : VersionManager) (invalidate_mask : FieldMask) :
    VersionManager :=
  { m with
    current_version_infos :=
      filterEmptyEntries
        (m.current_version_infos.map (fun p => (p.1, p.2 \ invalidate_mask))),
    previous_version_infos :=
      filterEmptyEntries
        (m.previous_version_infos.map (fun p => (p.1, p.2 \ invalidate_mask))) }

/-- One step of the version-manager state machine: recording versions (which
may create initial version states), advancing versions, or invalidating. -/
inductive VMStep : VersionManager → VersionManager → Prop
  | record (m : VersionManager) (mask : FieldMask) :
      VMStep m (record_current_versions m mask).1
  | recordPathOnly (m : VersionManager) (mask : FieldMask) :
      VMStep m (record_path_only_versions m mask).1
  | advance (m : VersionManager) (ctx : ℕ) (mask : FieldMask)
      (dedup : Bool) (epoch : ℕ) :
      VMStep m (advance_versions m ctx mask dedup epoch)
  | invalidate (m : VersionManager) (mask : FieldMask) :
      VMStep m (invalidate_version_infos m mask)

/-- Reachable version-manager states: everything obtainable from a fresh
manager by version-manager steps. -/
inductive VMReachable : VersionManager → Prop
  | init : VMReachable initial_manager
  | step {m m' : VersionManager} :
      VMReachable m → VMStep m m' → VMReachable m'

/-- Version conservation for a version map: any two entries whose masks share
a field carry the same version number, i.e. each field has at most one live
version number open for write. -/
def WriterConserved (infos : VersionEntries) : Prop :=
  ∀ p q, p ∈ infos → q ∈ infos → ∀ f, f ∈ p.2 → f ∈ q.2 → p.1 = q.1

/-- A concrete reachable manager used by witnesses: fields 0 and 1 are
versioned, then field 0 is advanced. -/
def vm_example : VersionManager :=
  advance_versions (record_current_versions initial_manager {0, 1}).1 7 {0} true 1

/-! ## Projection summaries and close elision (legion_analysis.h lines
626-651, 726-753, 787-810) -/

/-- A projection summary (source lines 632-651): the triple identifying one
projection access; its index-space domain is modelled by the finite set of
points the launch accesses. -/
structure ProjectionSummary where
  domain : Finset ℕ
  projection : ℕ
  sharding : ℕ
deriving DecidableEq

/-- Modelled from the spec: ProjectionTree::dominates (declared at source line
803) on the trees built from two summaries: the first summary covers every
point the second accesses. -/
def summary_dominates (a b : ProjectionSummary) : Bool :=
  decide (b.domain ⊆ a.domain)

/-- Modelled from the spec: ProjectionTree::disjoint (declared at source line
804) on the trees built from two summaries: the two summaries access no
common point. -/
def summary_disjoint (a b : ProjectionSummary) : Bool :=
  decide (a.domain ∩ b.domain = ∅)

/-- Modelled from the spec: FieldState::can_elide_close_operation (declared at
source lines 733-734): before closing a projection-open field state, the close
is skipped exactly when the incoming projection access is provably dominated
by or disjoint from every prior projection summary recorded in the active
epoch. -/
def can_elide_close_operation (projections : List ProjectionSummary)
    (incoming : ProjectionSummary) : Bool :=
  projections.all (fun prior =>
    summary_dominates prior incoming || summary_disjoint prior incoming)

/-- Modelled from the spec: whether the closer synthesizes a close operation
when a projection access arrives at a projection-open field state with the
given recorded summaries: a close is produced exactly when it cannot be
elided. -/
def close_from_projection (projections : List ProjectionSummary)
    (incoming : ProjectionSummary) : Bool :=
  ! can_elide_close_operation projections incoming

/-- Concrete prior projection access A over points {0, 1}. -/
def proj_access_a : ProjectionSummary := ⟨{0, 1}, 0, 0⟩

/-- Concrete incoming projection access B over point {0}: overlaps A
non-disjointly but is dominated by A. -/
def proj_access_b : ProjectionSummary := ⟨{0}, 0, 0⟩

/-- Concrete incoming access disjoint from A. -/
def proj_access_disjoint : ProjectionSummary := ⟨{2, 3}, 0, 0⟩

/-- Concrete incoming access overlapping A non-disjointly and not dominated
by it. -/
def proj_access_overlap : ProjectionSummary := ⟨{1, 2}, 0, 0⟩

/-! ## First-touch ownership (legion_analysis.h lines 1084-1091, 1216-1219) -/

/-- Modelled from the spec: the ownership-relevant events at one
(node, context): a participant (numbered address space) requesting ownership,
or the explicit invalidate message. -/
inductive OwnershipEvent
  | claim (participant : ℕ)
  | invalidate
deriving DecidableEq

/-- Modelled from the spec: first-touch ownership assignment (source comment
lines 1084-1091 and handle_remote_invalidate at lines 1216-1219): a claim on
an unowned manager installs the claimant as owner, a claim on an owned
manager changes nothing, and only the explicit invalidate message clears the
assignment. -/
def step_owner : Option ℕ → OwnershipEvent → Option ℕ
  | none, OwnershipEvent.claim p => some p
  | some q, OwnershipEvent.claim _ => some q
  | _, OwnershipEvent.invalidate => none

/-- The owner assignment after a sequence of ownership events, starting from
the unowned state. -/
def run_owner (events : List OwnershipEvent) : Option ℕ :=
  events.foldl step_owner none

/-- Concrete event sequence used by the ownership witness. -/
def owner_events_example : List OwnershipEvent :=
  [OwnershipEvent.claim 3, OwnershipEvent.claim 5, OwnershipEvent.invalidate]

/-! ## Packing and unpacking version info (legion_analysis.h lines 280-284)

The wire stream is modelled as a list of numeric tokens; the spec's
serializer contract only requires that pack/unpack pairs be symmetric. -/

/-- Serialize a field mask: its size followed by its elements in increasing
order. -/
def packMask (m : FieldMask) : List ℕ :=
  (m.sort (· ≤ ·)).length :: m.sort (· ≤ ·)

/-- Deserialize a field mask. -/
def unpackMask : List ℕ → Option (FieldMask × List ℕ)
  | [] => none
  | n :: rest =>
    if n ≤ rest.length then some ((rest.take n).toFinset, rest.drop n)
    else none

/-- Serialize one (id, mask) pair. -/
def packPair (p : ℕ × FieldMask) : List ℕ :=
  p.1 :: packMask p.2

/-- Deserialize one (id, mask) pair. -/
def unpackPair : List ℕ → Option ((ℕ × FieldMask) × List ℕ)
  | [] => none
  | v :: s =>
    match unpackMask s with
    | some (m, s') => some ((v, m), s')
    | none => none

/-- Serialize a list: its length followed by the serialized elements. -/
def packList {α : Type} (packA : α → List ℕ) (l : List α) : List ℕ :=
  l.length :: (l.map packA).flatten

/-- Deserialize a known number of consecutive elements. -/
def unpackN {α : Type} (u : List ℕ → Option (α × List ℕ)) :
    ℕ → List ℕ → Option (List α × List ℕ)
  | 0, s => some ([], s)
  | n + 1, s =>
    match u s with
    | none => none
    | some (a, s') =>
      match unpackN u n s' with
      | none => none
      | some (l, s'') => some (a :: l, s'')

/-- Deserialize a length-prefixed list. -/
def unpackList {α : Type} (u : List ℕ → Option (α × List ℕ)) :
    List ℕ → Option (List α × List ℕ)
  | [] => none
  | n :: s => unpackN u n s

/-- Serialize a physical state: dirty and reduction masks, then the valid and
reduction view maps. -/
def packPhysicalState (ps : PhysicalState) : List ℕ :=
  packMask ps.dirty_mask ++ packMask ps.reduction_mask ++
    packList packPair ps.valid_views ++ packList packPair ps.reduction_views

/-- Deserialize a physical state. -/
def unpackPhysicalState (s : List ℕ) : Option (PhysicalState × List ℕ) :=
  match unpackMask s with
  | none => none
  | some (d, s1) =>
    match unpackMask s1 with
    | none => none
    | some (r, s2) =>
      match unpackList unpackPair s2 with
      | none => none
      | some (vv, s3) =>
        match unpackList unpackPair s3 with
        | none => none
        | some (rv, s4) => some (⟨d, r, vv, rv⟩, s4)

/-- Modelled from the spec: VersionInfo::pack_version_info (declared at source
line 280, body not in this header) serializes the whole version-info payload:
upper bound node, split masks, field-version maps, and the physical states
with their view sets. -/
def pack_version_info (v : VersionInfo) : List ℕ :=
  v.upper_bound_node ::
    (packList packMask v.split_masks ++
     packList (packList packPair) v.field_versions ++
     packList packPhysicalState v.physical_states)

/-- Modelled from the spec: VersionInfo::unpack_version_info (declared at
source lines 281-282) deserializes what pack_version_info produced. -/
def unpack_version_info (s : List ℕ) : Option (VersionInfo × List ℕ) :=
  match s with
  | [] => none
  | ub :: s0 =>
    match unpackList unpackMask s0 with
    | none => none
    | some (splits, s1) =>
      match unpackList (unpackList unpackPair) s1 with
      | none => none
      | some (fvs, s2) =>
        match unpackList unpackPhysicalState s2 with
        | none => none
        | some (pss, s3) => some (⟨ub, pss, fvs, splits⟩, s3)

/-- Modelled from the spec: VersionInfo::pack_version_numbers (declared at
source line 283) serializes only the version-number payload: upper bound node,
split masks and field-version maps. -/
def pack_version_numbers (v : VersionInfo) : List ℕ :=
  v.upper_bound_node ::
    (packList packMask v.split_masks ++
     packList (packList packPair) v.field_versions)

/-- Modelled from the spec: VersionInfo::unpack_version_numbers (declared at
source line 284) deserializes what pack_version_numbers produced. -/
def unpack_version_numbers (s : List ℕ) :
    Option ((ℕ × List FieldMask × List FieldVersions) × List ℕ) :=
  match s with
  | [] => none
  | ub :: s0 =>
    match unpackList unpackMask s0 with
    | none => none
    | some (splits, s1) =>
      match unpackList (unpackList unpackPair) s1 with
      | none => none
      | some (fvs, s2) => some ((ub, splits, fvs), s2)

/-! ## VersioningSet and its tagged-variant model (legion_analysis.h lines
74-174) -/

/-- The union-typed single-versus-multi layout of VersioningSet (source lines
161-174): a discriminator flag selecting between an inline single entry and an
ordered map, plus the valid-field mask.  The C union is embedded by carrying
both arms, with the flag deciding which arm is live. -/
structure VersioningSet where
  single : Bool
  single_version : Option (ℕ × FieldMask)
  multi_versions : List (ℕ × FieldMask)
  valid_fields : FieldMask
deriving DecidableEq

/-- VersioningSet::empty, translated from the inline body at source lines
135-136: single layout with a null single_version pointer. -/
def VersioningSet.empty (s : VersioningSet) : Bool :=
  s.single && decide (s.single_version = none)

/-- VersioningSet::get_valid_mask, translated from the inline body at source
lines 137-138. -/
def VersioningSet.get_valid_mask (s : VersioningSet) : FieldMask :=
  s.valid_fields

/-- Insert into an ordered association list of version entries, unioning masks
on an existing key (the multi layout is the ordered STL map of the source,
source line 169). -/
def sorted_insert_entry : List (ℕ × FieldMask) → ℕ → FieldMask → List (ℕ × FieldMask)
  | [], k, m => [(k, m)]
  | p :: rest, k, m =>
    if k < p.1 then (k, m) :: p :: rest
    else if k = p.1 then (p.1, p.2 ∪ m) :: rest
    else p :: sorted_insert_entry rest k m

/-- Remove the entry with the given key from an association list. -/
def erase_entry : List (ℕ × FieldMask) → ℕ → List (ℕ × FieldMask)
  | [], _ => []
  | p :: rest, k => if p.1 = k then rest else p :: erase_entry rest k

/-- Lookup in an association list of version entries. -/
def find_entry : List (ℕ × FieldMask) → ℕ → Option FieldMask
  | [], _ => none
  | p :: rest, k => if p.1 = k then some p.2 else find_entry rest k

/-- Modelled from the spec: VersioningSet::insert (declared at source lines
143-144, body not in this header) adds a (state, mask) entry: a single empty
set stores it inline, inserting a second distinct state switches to the
multi layout, and an existing state has the mask unioned in; valid_fields
accumulates the inserted mask. -/
def VersioningSet.insert (s : VersioningSet) (k : ℕ) (m : FieldMask) :
    VersioningSet :=
  if s.single then
    match s.single_version with
    | none =>
        { s with single_version := some (k, m),
                 valid_fields := s.valid_fields ∪ m }
    | some (k0, m0) =>
        if k0 = k then
          { s with single_version := some (k0, m0 ∪ m),
                   valid_fields := s.valid_fields ∪ m }
        else
          { single := false, single_version := none,
            multi_versions := sorted_insert_entry [(k0, m0)] k m,
            valid_fields := s.valid_fields ∪ m }
  else
    { s with multi_versions := sorted_insert_entry s.multi_versions k m,
             valid_fields := s.valid_fields ∪ m }

/-- Modelled from the spec: VersioningSet::erase (declared at source line 147)
removes a state: erasing the inline single entry empties the set, and a multi
layout that drops to one entry collapses back to the single layout; the valid
mask is cleared only when the set becomes empty (it may remain an
overapproximation otherwise, source lines 171-172). -/
def VersioningSet.erase (s : VersioningSet) (k : ℕ) : VersioningSet :=
  if s.single then
    match s.single_version with
    | some (k0, _) =>
        if k0 = k then { s with single_version := none, valid_fields := ∅ }
        else s
    | none => s
  else
    match erase_entry s.multi_versions k with
    | [p] => ⟨true, some p, [], s.valid_fields⟩
    | l => { s with multi_versions := l }

/-- Modelled from the spec: VersioningSet::clear (declared at source line 148)
resets the set to the empty single layout. -/
def VersioningSet.clear (_ : VersioningSet) : VersioningSet :=
  ⟨true, none, [], ∅⟩

/-- Modelled from the spec: VersioningSet::size (declared at source line 149):
zero or one entry in the single layout, the map size in the multi layout. -/
def VersioningSet.size (s : VersioningSet) : ℕ :=
  if s.single then
    match s.single_version with
    | none => 0
    | some _ => 1
  else s.multi_versions.length

/-- Modelled from the spec: VersioningSet::operator[] (declared at source line
140) finds the mask recorded for a state. -/
def VersioningSet.lookup (s : VersioningSet) (k : ℕ) : Option FieldMask :=
  if s.single then
    match s.single_version with
    | none => none
    | some (k0, m0) => if k0 = k then some m0 else none
  else find_entry s.multi_versions k

/-- The begin()/end() iteration sequence of a VersioningSet, following the
iterator at source lines 85-127: the single layout yields its one entry (or
nothing when empty) and the multi layout walks the ordered map. -/
def VersioningSet.iterate (s : VersioningSet) : List (ℕ × FieldMask) :=
  if s.single then
    match s.single_version with
    | none => []
    | some p => [p]
  else s.multi_versions

/-- Modelled from the spec: the plain tagged variant
{Empty, Single(entry), Many(ordered map)} that the design notes give as the
reframing of the union-typed VersioningSet layout. -/
inductive VersioningSetModel
  | Empty : VersioningSetModel
  | Single (entry : ℕ × FieldMask) : VersioningSetModel
  | Many (entries : List (ℕ × FieldMask)) : VersioningSetModel
deriving DecidableEq

/-- The tagged-variant version set: the variant plus the (possibly
overapproximate) valid-field mask. -/
structure TaggedVersioningSet where
  core : VersioningSetModel
  valid_fields : FieldMask
deriving DecidableEq

/-- Modelled from the spec: insertion on the tagged variant. -/
def tagged_insert (s : TaggedVersioningSet) (k : ℕ) (m : FieldMask) :
    TaggedVersioningSet :=
  { core :=
      match s.core with
      | VersioningSetModel.Empty => VersioningSetModel.Single (k, m)
      | VersioningSetModel.Single (k0, m0) =>
          if k0 = k then VersioningSetModel.Single (k0, m0 ∪ m)
          else VersioningSetModel.Many (sorted_insert_entry [(k0, m0)] k m)
      | VersioningSetModel.Many l =>
          VersioningSetModel.Many (sorted_insert_entry l k m),
    valid_fields := s.valid_fields ∪ m }

/-- Modelled from the spec: erasure on the tagged variant. -/
def tagged_erase (s : TaggedVersioningSet) (k : ℕ) : TaggedVersioningSet :=
  match s.core with
  | VersioningSetModel.Empty => s
  | VersioningSetModel.Single (k0, m0) =>
      if k0 = k then ⟨VersioningSetModel.Empty, ∅⟩
      else ⟨VersioningSetModel.Single (k0, m0), s.valid_fields⟩
  | VersioningSetModel.Many l =>
      match erase_entry l k with
      | [p] => ⟨VersioningSetModel.Single p, s.valid_fields⟩
      | l' => ⟨VersioningSetModel.Many l', s.valid_fields⟩

/-- Modelled from the spec: clearing the tagged variant. -/
def tagged_clear (_ : TaggedVersioningSet) : TaggedVersioningSet :=
  ⟨VersioningSetModel.Empty, ∅⟩

/-- Emptiness of the tagged variant. -/
def tagged_empty (s : TaggedVersioningSet) : Bool :=
  match s.core with
  | VersioningSetModel.Empty => true
  | _ => false

/-- Size of the tagged variant. -/
def tagged_size (s : TaggedVersioningSet) : ℕ :=
  match s.core with
  | VersioningSetModel.Empty => 0
  | VersioningSetModel.Single _ => 1
  | VersioningSetModel.Many l => l.length

/-- Lookup on the tagged variant. -/
def tagged_lookup (s : TaggedVersioningSet) (k : ℕ) : Option FieldMask :=
  match s.core with
  | VersioningSetModel.Empty => none
  | VersioningSetModel.Single (k0, m0) => if k0 = k then some m0 else none
  | VersioningSetModel.Many l => find_entry l k

/-- Iteration sequence of the tagged variant. -/
def tagged_iterate (s : TaggedVersioningSet) : List (ℕ × FieldMask) :=
  match s.core with
  | VersioningSetModel.Empty => []
  | VersioningSetModel.Single p => [p]
  | VersioningSetModel.Many l => l

/-- One operation of the common insert/erase/clear interface. -/
inductive VersioningSetOp
  | ins (k : ℕ) (m : FieldMask)
  | ers (k : ℕ)
  | clr

/-- Apply one operation to the union-layout set. -/
def apply_vs_op (s : VersioningSet) : VersioningSetOp → VersioningSet
  | VersioningSetOp.ins k m => s.insert k m
  | VersioningSetOp.ers k => s.erase k
  | VersioningSetOp.clr => s.clear

/-- Apply one operation to the tagged-variant set. -/
def apply_tagged_op (s : TaggedVersioningSet) :
    VersioningSetOp → TaggedVersioningSet
  | VersioningSetOp.ins k m => tagged_insert s k m
  | VersioningSetOp.ers k => tagged_erase s k
  | VersioningSetOp.clr => tagged_clear s

/-- Run an operation sequence on the union-layout set from the empty set. -/
def run_vs (ops : List VersioningSetOp) : VersioningSet :=
  ops.foldl apply_vs_op ⟨true, none, [], ∅⟩

/-- Run an operation sequence on the tagged-variant set from the empty set. -/
def run_tagged (ops : List VersioningSetOp) : TaggedVersioningSet :=
  ops.foldl apply_tagged_op ⟨VersioningSetModel.Empty, ∅⟩

/-- The abstraction from the union layout to the tagged variant: the
discriminator flag and the null test pick the variant. -/
def abs_of (s : VersioningSet) : TaggedVersioningSet :=
  ⟨if s.single then
     match s.single_version with
     | none => VersioningSetModel.Empty
     | some p => VersioningSetModel.Single p
   else VersioningSetModel.Many s.multi_versions,
   s.valid_fields⟩

-- THEOREMS BELOW

/-- C9: LogicalCloser::has_close_operations returns true iff one of the four
masks normal_close_mask, read_only_close_mask, flush_only_close_mask,
disjoint_close_mask is non-empty; it reads neither overwriting_close_mask nor
closed_projections (replacing those two fields never changes the result), so a
closer on which only record_overwriting_close has accumulated fields still
reports that it has no close operations. -/
theorem c9_has_close_operations :
    (∀ c : LogicalCloser,
      (c.has_close_operations = true ↔
        (c.normal_close_mask ≠ ∅ ∨ c.read_only_close_mask ≠ ∅ ∨
         c.flush_only_close_mask ≠ ∅ ∨ c.disjoint_close_mask ≠ ∅))) ∧
    (∀ (c : LogicalCloser) (o p : FieldMask),
      LogicalCloser.has_close_operations
          { c with overwriting_close_mask := o, closed_projections := p } =
        c.has_close_operations) ∧
    (∀ (mask : FieldMask) (projection : Bool),
      (record_overwriting_close initial_closer mask projection).has_close_operations
        = false) := by
  refine ⟨?_, ?_, ?_⟩
  · intro c
    simp [LogicalCloser.has_close_operations, or_assoc]
  · intro c o p
    simp [LogicalCloser.has_close_operations]
  · intro mask projection
    simp [LogicalCloser.has_close_operations, record_overwriting_close, initial_closer]

/-- C10: for every VersionInfo whose physical_states vector is non-empty (and
of representable size), get_depth returns physical_states.size() - 1 and the
debug assertion is satisfied; moreover on an empty vector the release-build
size_t expression underflows to SIZE_T_CARD - 1, which is why the non-empty
precondition is essential. -/
theorem c10_get_depth (v : VersionInfo) (hne : v.physical_states ≠ [])
    (hlen : v.physical_states.length < SIZE_T_CARD) :
    v.get_depth = v.physical_states.length - 1 ∧
    v.get_depth_assertion ∧
    (∀ w : VersionInfo, w.physical_states = [] →
      w.get_depth = SIZE_T_CARD - 1) := by
  refine ⟨?_, hne, ?_⟩
  · have hpos : 0 < v.physical_states.length := List.length_pos.mpr hne
    simp only [VersionInfo.get_depth, SIZE_T_CARD] at *
    omega
  · intro w hw
    simp [VersionInfo.get_depth, hw, SIZE_T_CARD]

theorem initialize_close_operations_length (c : LogicalCloser) :
    (initialize_close_operations c).length ≤ 4 := by
  unfold initialize_close_operations
  split_ifs <;> simp

theorem initialize_close_operations_countP (c : LogicalCloser) (cat : CloseCategory) :
    (initialize_close_operations c).countP (fun x => decide (x = cat)) ≤ 1 := by
  unfold initialize_close_operations
  rcases cat <;> split_ifs <;> decide

/-- C2: for every traversal, i.e. every sequence of close-record requests fed
to one LogicalCloser, the synthesized close operations number at most four in
total and at most one per category (normal, read-only, flush-only, disjoint),
regardless of how many open children trigger record requests. -/
theorem c2_close_operation_boundedness (recs : List CloseRecord) :
    (initialize_close_operations (recs.foldl apply_close_record initial_closer)).length ≤ 4 ∧
    ∀ cat : CloseCategory,
      (initialize_close_operations
          (recs.foldl apply_close_record initial_closer)).countP
        (fun x => decide (x = cat)) ≤ 1 :=
  ⟨initialize_close_operations_length _,
   fun cat => initialize_close_operations_countP _ cat⟩

theorem lookupEntry_addEntry {κ : Type} [DecidableEq κ]
    (l : List (κ × FieldMask)) (k : κ) (m : FieldMask) :
    lookupEntry (addEntry l k m) k = lookupEntry l k ∪ m := by
  induction l with
  | nil => simp [addEntry, lookupEntry]
  | cons p rest ih =>
    by_cases h : p.1 = k
    · simp [addEntry, lookupEntry, h]
    · simp [addEntry, lookupEntry, h, ih]

/-- C3: issuing the same advance, deduplicated by the
(logical-context id, projection-epoch id) pair, twice leaves the
version-manager state identical to issuing it once: the second arrival
observes the first through the recorded previous_advancers entry and is a
no-op. -/
theorem c3_idempotent_advance (m : VersionManager) (logical_ctx : ℕ)
    (mask : FieldMask) (advance_epoch : ℕ) :
    advance_versions (advance_versions m logical_ctx mask true advance_epoch)
        logical_ctx mask true advance_epoch =
      advance_versions m logical_ctx mask true advance_epoch := by
  by_cases h :
      mask \ lookupEntry m.previous_advancers ⟨logical_ctx, advance_epoch⟩ = ∅
  · simp [advance_versions, h]
  · have hdone :
        mask \ lookupEntry
          (addEntry m.previous_advancers
            (⟨logical_ctx, advance_epoch⟩ : VersionManager.ProjectionEpoch)
            (mask \ lookupEntry m.previous_advancers ⟨logical_ctx, advance_epoch⟩))
          ⟨logical_ctx, advance_epoch⟩ = ∅ := by
      rw [lookupEntry_addEntry, Finset.union_sdiff_self_eq_union]
      exact Finset.sdiff_eq_empty_iff_subset.mpr Finset.subset_union_right
    simp [advance_versions, h, hdone]

theorem run_owner_take_succ (events : List OwnershipEvent) (i : ℕ)
    (hi : i < events.length) :
    run_owner (events.take (i + 1)) =
      step_owner (run_owner (events.take i)) (events.get ⟨i, hi⟩) := by
  unfold run_owner
  have ht : events.take (i + 1) = events.take i ++ [events.get ⟨i, hi⟩] := by
    rw [List.take_succ, List.getElem?_eq_getElem hi]
    rfl
  rw [ht, List.foldl_append]
  rfl

/-- C7: in every execution (sequence of ownership events at one
(node, context)), the first participant to request ownership becomes the
owner, and the assignment changes between consecutive states only when the
event was the explicit invalidate message or when no owner had been assigned
yet — there is no silent migration of ownership. -/
theorem c7_first_touch_ownership (events : List OwnershipEvent) (i : ℕ)
    (hi : i < events.length) :
    (run_owner (events.take i) = none →
      ∀ p, events.get ⟨i, hi⟩ = OwnershipEvent.claim p →
        run_owner (events.take (i + 1)) = some p) ∧
    (run_owner (events.take (i + 1)) ≠ run_owner (events.take i) →
      events.get ⟨i, hi⟩ = OwnershipEvent.invalidate ∨
        run_owner (events.take i) = none) := by
  have hstep := run_owner_take_succ events i hi
  constructor
  · intro hnone p hev
    rw [hstep, hnone, hev]
    rfl
  · intro hch
    cases hev : events.get ⟨i, hi⟩ with
    | claim p =>
      cases ho : run_owner (events.take i) with
      | none => exact Or.inr rfl
      | some q =>
        exfalso
        apply hch
        rw [hstep, hev, ho]
        rfl
    | invalidate => exact Or.inl rfl

/-- Witness for C7: in the concrete event sequence, the first claim installs
participant 3, and the only change afterwards happens at the invalidate. -/
theorem c7_first_touch_ownership_witness :
    run_owner (owner_events_example.take 1) = some 3 ∧
    (owner_events_example.get ⟨2, by decide⟩ = OwnershipEvent.invalidate ∨
      run_owner (owner_events_example.take 2) = none) :=
  ⟨(c7_first_touch_ownership owner_events_example 0 (by decide)).1
      (by decide) 3 (by decide),
   (c7_first_touch_ownership owner_events_example 2 (by decide)).2 (by decide)⟩

/-- C4 counterexample: with prior projection access A over points {0, 1} and
incoming access B over point {0}, B overlaps A non-disjointly, yet no close
operation is synthesized — B is dominated by A, so the close is elided.  The
claim's second half (overlap implies a close) is therefore false as stated. -/
theorem c4_counterexample :
    ¬ ((proj_access_a.domain ∩ proj_access_b.domain ≠ ∅) →
        close_from_projection [proj_access_a] proj_access_b = true) := by
  decide

/-- C4 (amended): if the incoming access B is dominated by or disjoint from
every prior projection summary of the active epoch, no close operation is
synthesized; and for two sequential accesses A then B, if B overlaps A
non-disjointly and is not dominated by A, a close operation is synthesized. -/
theorem c4_projection_close_elision (a b : ProjectionSummary)
    (priors : List ProjectionSummary) :
    ((∀ p ∈ priors,
        summary_dominates p b = true ∨ summary_disjoint p b = true) →
      close_from_projection priors b = false) ∧
    ((summary_disjoint a b = false ∧ summary_dominates a b = false) →
      close_from_projection [a] b = true) := by
  constructor
  · intro h
    have helide : can_elide_close_operation priors b = true := by
      simp only [can_elide_close_operation, List.all_eq_true]
      intro p hp
      rcases h p hp with h1 | h1 <;> simp [h1]
    simp [close_from_projection, helide]
  · rintro ⟨h1, h2⟩
    simp [close_from_projection, can_elide_close_operation, h1, h2]

/-- Witness for C4: a disjoint incoming access elides the close, and a
partially overlapping, non-dominated incoming access forces one. -/
theorem c4_projection_close_elision_witness :
    close_from_projection [proj_access_a] proj_access_disjoint = false ∧
    close_from_projection [proj_access_a] proj_access_overlap = true :=
  ⟨(c4_projection_close_elision proj_access_a proj_access_disjoint
      [proj_access_a]).1 (by decide),
   (c4_projection_close_elision proj_access_a proj_access_overlap
      [proj_access_a]).2 (by decide)⟩

theorem addEntry_covers {κ : Type} [DecidableEq κ]
    (l : List (κ × FieldMask)) (k : κ) (m : FieldMask) :
    ∃ m0, (k, m0) ∈ addEntry l k m ∧ m ⊆ m0 := by
  induction l with
  | nil => exact ⟨m, by simp [addEntry], Finset.Subset.refl m⟩
  | cons p rest ih =>
    by_cases h : p.1 = k
    · refine ⟨p.2 ∪ m, ?_, Finset.subset_union_right⟩
      simp [addEntry, h]
    · obtain ⟨m0, hm0, hsub⟩ := ih
      exact ⟨m0, by simp [addEntry, h, hm0], hsub⟩

/-- C5: a requested field with no existing version state is not an error:
record_current_versions and record_path_only_versions both report it in the
unversioned mask and create an initial version state covering it whose
version number is init_version, which is exactly 1. -/
theorem c5_unversioned_fields_create_initial_version (m : VersionManager)
    (version_mask : FieldMask) (f : ℕ) (hf : f ∈ version_mask)
    (hunv : f ∉ versionedFields m.current_version_infos) :
    (f ∈ (record_current_versions m version_mask).2 ∧
      ∃ mk, (VersionManager.init_version, mk) ∈
          (record_current_versions m version_mask).1.current_version_infos ∧
        f ∈ mk) ∧
    (f ∈ (record_path_only_versions m version_mask).2 ∧
      ∃ mk, (VersionManager.init_version, mk) ∈
          (record_path_only_versions m version_mask).1.current_version_infos ∧
        f ∈ mk) ∧
    VersionManager.init_version = 1 := by
  have hmem : f ∈ version_mask \ versionedFields m.current_version_infos :=
    Finset.mem_sdiff.mpr ⟨hf, hunv⟩
  have hmiss :
      f ∈ (version_mask \ versionedFields m.current_version_infos) \
        versionedFields m.current_version_infos := by
    rw [Finset.sdiff_idem]
    exact hmem
  have hne :
      (version_mask \ versionedFields m.current_version_infos) \
        versionedFields m.current_version_infos ≠ ∅ :=
    Finset.ne_empty_of_mem hmiss
  obtain ⟨m0, hm0, hsub⟩ :=
    addEntry_covers m.current_version_infos VersionManager.init_version
      ((version_mask \ versionedFields m.current_version_infos) \
        versionedFields m.current_version_infos)
  have hcreate :
      ∃ mk, (VersionManager.init_version, mk) ∈
          (find_or_create_unversioned_states m
            (version_mask \ versionedFields m.current_version_infos)).current_version_infos ∧
        f ∈ mk := by
    refine ⟨m0, ?_, hsub hmiss⟩
    simp only [find_or_create_unversioned_states]
    rw [if_neg hne]
    exact hm0
  exact ⟨⟨hmem, hcreate⟩, ⟨hmem, hcreate⟩, rfl⟩

/-- Witness for C5: the initial version number handed to an unversioned field
is 1, at field 0 of a fresh manager. -/
theorem c5_unversioned_fields_witness : VersionManager.init_version = 1 :=
  (c5_unversioned_fields_create_initial_version initial_manager {0, 1} 0
    (by decide) (by decide)).2.2

theorem unpackMask_packMask (m : FieldMask) (rest : List ℕ) :
    unpackMask (packMask m ++ rest) = some (m, rest) := by
  have hlen : (m.sort (· ≤ ·)).length ≤ (m.sort (· ≤ ·) ++ rest).length := by
    simp
  simp only [packMask, List.cons_append, unpackMask]
  rw [if_pos hlen, List.take_left, List.drop_left, Finset.sort_toFinset]

theorem unpackPair_packPair (p : ℕ × FieldMask) (rest : List ℕ) :
    unpackPair (packPair p ++ rest) = some (p, rest) := by
  simp only [packPair, List.cons_append, unpackPair]
  rw [unpackMask_packMask]

theorem unpackN_packed {α : Type} {packA : α → List ℕ}
    {u : List ℕ → Option (α × List ℕ)}
    (hu : ∀ a rest, u (packA a ++ rest) = some (a, rest))
    (l : List α) (rest : List ℕ) :
    unpackN u l.length ((l.map packA).flatten ++ rest) = some (l, rest) := by
  induction l generalizing rest with
  | nil => simp [unpackN]
  | cons a t ih =>
    simp only [List.map_cons, List.flatten_cons, List.length_cons,
      List.append_assoc]
    simp [unpackN, hu, ih]

theorem unpackList_packList {α : Type} {packA : α → List ℕ}
    {u : List ℕ → Option (α × List ℕ)}
    (hu : ∀ a rest, u (packA a ++ rest) = some (a, rest))
    (l : List α) (rest : List ℕ) :
    unpackList u (packList packA l ++ rest) = some (l, rest) := by
  simp only [packList, List.cons_append, unpackList]
  exact unpackN_packed hu l rest

theorem unpackPhysicalState_pack (ps : PhysicalState) (rest : List ℕ) :
    unpackPhysicalState (packPhysicalState ps ++ rest) = some (ps, rest) := by
  simp [packPhysicalState, unpackPhysicalState, List.append_assoc,
    unpackMask_packMask, unpackList_packList unpackPair_packPair]

/-- C6: round-trip pack/unpack: packing a version-info payload with
pack_version_info (resp. pack_version_numbers) and unpacking with
unpack_version_info (resp. unpack_version_numbers) reproduces the payload
exactly — the field-version maps, split masks, and view sets come back with
field-for-field mask equality, with the remaining stream untouched. -/
theorem c6_pack_unpack_round_trip (v : VersionInfo) (rest : List ℕ) :
    unpack_version_info (pack_version_info v ++ rest) = some (v, rest) ∧
    unpack_version_numbers (pack_version_numbers v ++ rest) =
      some ((v.upper_bound_node, v.split_masks, v.field_versions), rest) := by
  constructor <;>
    simp [pack_version_info, unpack_version_info, pack_version_numbers,
      unpack_version_numbers, List.cons_append, List.append_assoc,
      unpackList_packList unpackMask_packMask,
      unpackList_packList (unpackList_packList unpackPair_packPair),
      unpackList_packList unpackPhysicalState_pack]

theorem versionedFields_cons (q : ℕ × FieldMask) (rest : VersionEntries) :
    versionedFields (q :: rest) = q.2 ∪ versionedFields rest := rfl

theorem mem_versionedFields_of {infos : VersionEntries} {p : ℕ × FieldMask}
    {f : ℕ} (hp : p ∈ infos) (hf : f ∈ p.2) : f ∈ versionedFields infos := by
  induction infos with
  | nil => cases hp
  | cons q rest ih =>
    rw [versionedFields_cons, Finset.mem_union]
    rcases List.mem_cons.mp hp with h | h
    · exact Or.inl (h ▸ hf)
    · exact Or.inr (ih h)

theorem mem_addEntry {κ : Type} [DecidableEq κ] {l : List (κ × FieldMask)}
    {k : κ} {m : FieldMask} {q : κ × FieldMask} (hq : q ∈ addEntry l k m) :
    q ∈ l ∨ (q.1 = k ∧ ∃ m0, q.2 = m0 ∪ m ∧ ((k, m0) ∈ l ∨ m0 = ∅)) := by
  induction l with
  | nil =>
    simp only [addEntry, List.mem_singleton] at hq
    subst hq
    exact Or.inr ⟨rfl, ∅, by simp, Or.inr rfl⟩
  | cons p rest ih =>
    by_cases h : p.1 = k
    · simp only [addEntry, if_pos h, List.mem_cons] at hq
      rcases hq with rfl | hq
      · refine Or.inr ⟨h, p.2, rfl, Or.inl ?_⟩
        have hp : (k, p.2) = p := by
          rw [← h]
        rw [hp]
        exact List.mem_cons_self p rest
      · exact Or.inl (List.mem_cons_of_mem p hq)
    · simp only [addEntry, if_neg h, List.mem_cons] at hq
      rcases hq with rfl | hq
      · exact Or.inl (List.mem_cons_self q rest)
      · rcases ih hq with h1 | ⟨hk, m0, hm0, hmem⟩
        · exact Or.inl (List.mem_cons_of_mem p h1)
        · refine Or.inr ⟨hk, m0, hm0, ?_⟩
          rcases hmem with hmem | hmem
          · exact Or.inl (List.mem_cons_of_mem p hmem)
          · exact Or.inr hmem

theorem writerConserved_addEntry {infos : VersionEntries} {k : ℕ}
    {m : FieldMask} (hw : WriterConserved infos)
    (hdisj : ∀ f ∈ m, f ∉ versionedFields infos) :
    WriterConserved (addEntry infos k m) := by
  have key : ∀ q, q ∈ addEntry infos k m → ∀ f, f ∈ q.2 →
      (q ∈ infos ∧ f ∈ versionedFields infos) ∨
      (q.1 = k ∧ (f ∈ m ∨ ∃ m0, (k, m0) ∈ infos ∧ f ∈ m0)) := by
    intro q hq f hf
    rcases mem_addEntry hq with hq' | ⟨hqk, m0, hm0, hmem⟩
    · exact Or.inl ⟨hq', mem_versionedFields_of hq' hf⟩
    · rw [hm0] at hf
      rcases Finset.mem_union.mp hf with hf | hf
      · rcases hmem with hmem | hmem
        · exact Or.inr ⟨hqk, Or.inr ⟨m0, hmem, hf⟩⟩
        · subst hmem
          cases hf
      · exact Or.inr ⟨hqk, Or.inl hf⟩
  intro p q hp hq f hfp hfq
  rcases key p hp f hfp with ⟨hpold, hpv⟩ | ⟨hpk, hpf⟩ <;>
    rcases key q hq f hfq with ⟨hqold, hqv⟩ | ⟨hqk, hqf⟩
  · -- both entries pre-existing
    exact hw p q hpold hqold f hfp hfq
  · -- p pre-existing, q carries key k
    rcases hqf with hfm | ⟨m0, hm0, hfm0⟩
    · exact absurd hpv (hdisj f hfm)
    · rw [hqk]
      exact hw p (k, m0) hpold hm0 f hfp hfm0
  · -- q pre-existing, p carries key k
    rcases hpf with hfm | ⟨m0, hm0, hfm0⟩
    · exact absurd hqv (hdisj f hfm)
    · rw [hpk]
      exact (hw q (k, m0) hqold hm0 f hfq hfm0).symm
  · rw [hpk, hqk]

theorem mem_filter_map_entries {infos : VersionEntries}
    {g : ℕ × FieldMask → ℕ × FieldMask} {q : ℕ × FieldMask}
    (hq : q ∈ filterEmptyEntries (infos.map g)) :
    ∃ p, p ∈ infos ∧ q = g p := by
  rw [filterEmptyEntries, List.mem_filter] at hq
  obtain ⟨a, ha, h⟩ := List.mem_map.mp hq.1
  exact ⟨a, ha, h.symm⟩

theorem mem_advance_core_current {m : VersionManager} {mask : FieldMask}
    {q : ℕ × FieldMask}
    (hq : q ∈ (advance_core m mask).current_version_infos) :
    (∃ p, p ∈ m.current_version_infos ∧ q = (p.1, p.2 \ mask)) ∨
    (∃ p, p ∈ m.current_version_infos ∧ q = (p.1 + 1, p.2 ∩ mask)) ∨
    q = (VersionManager.init_version,
      mask \ versionedFields m.current_version_infos) := by
  simp only [advance_core] at hq
  rcases List.mem_append.mp hq with h | h
  case inl =>
    rcases List.mem_append.mp h with h | h
    · exact Or.inl (mem_filter_map_entries h)
    · exact Or.inr (Or.inl (mem_filter_map_entries h))
  case inr =>
    right; right
    by_cases hmiss : mask \ versionedFields m.current_version_infos = ∅
    · rw [if_pos hmiss] at h
      cases h
    · rw [if_neg hmiss] at h
      rcases List.mem_cons.mp h with h1 | h1
      · exact h1
      · cases h1

theorem writerConserved_advance_core (m : VersionManager) (mask : FieldMask)
    (hw : WriterConserved m.current_version_infos) :
    WriterConserved (advance_core m mask).current_version_infos := by
  intro p q hp hq f hfp hfq
  rcases mem_advance_core_current hp with ⟨a, ha, rfl⟩ | ⟨a, ha, rfl⟩ | rfl <;>
    rcases mem_advance_core_current hq with ⟨b, hb, rfl⟩ | ⟨b, hb, rfl⟩ | rfl
  · exact hw a b ha hb f (Finset.mem_sdiff.mp hfp).1 (Finset.mem_sdiff.mp hfq).1
  · exact absurd (Finset.mem_inter.mp hfq).2 (Finset.mem_sdiff.mp hfp).2
  · exact absurd (Finset.mem_sdiff.mp hfq).1 (Finset.mem_sdiff.mp hfp).2
  · exact absurd (Finset.mem_inter.mp hfp).2 (Finset.mem_sdiff.mp hfq).2
  · have h1 := hw a b ha hb f (Finset.mem_inter.mp hfp).1
      (Finset.mem_inter.mp hfq).1
    simp [h1]
  · exact absurd (mem_versionedFields_of ha (Finset.mem_inter.mp hfp).1)
      (Finset.mem_sdiff.mp hfq).2
  · exact absurd (Finset.mem_sdiff.mp hfp).1 (Finset.mem_sdiff.mp hfq).2
  · exact absurd (mem_versionedFields_of hb (Finset.mem_inter.mp hfq).1)
      (Finset.mem_sdiff.mp hfp).2
  · rfl

theorem writerConserved_find_or_create (m : VersionManager) (u : FieldMask)
    (hw : WriterConserved m.current_version_infos) :
    WriterConserved
      (find_or_create_unversioned_states m u).current_version_infos := by
  by_cases h : u \ versionedFields m.current_version_infos = ∅
  · simp only [find_or_create_unversioned_states]
    rw [if_pos h]
    exact hw
  · simp only [find_or_create_unversioned_states]
    rw [if_neg h]
    exact writerConserved_addEntry hw (fun f hf => (Finset.mem_sdiff.mp hf).2)

theorem writerConserved_record (m : VersionManager) (mask : FieldMask)
    (hw : WriterConserved m.current_version_infos) :
    WriterConserved
      (record_current_versions m mask).1.current_version_infos :=
  writerConserved_find_or_create m _ hw

theorem writerConserved_record_path (m : VersionManager) (mask : FieldMask)
    (hw : WriterConserved m.current_version_infos) :
    WriterConserved
      (record_path_only_versions m mask).1.current_version_infos :=
  writerConserved_find_or_create m _ hw

theorem writerConserved_advance_versions (m : VersionManager) (ctx : ℕ)
    (mask : FieldMask) (dedup : Bool) (epoch : ℕ)
    (hw : WriterConserved m.current_version_infos) :
    WriterConserved
      (advance_versions m ctx mask dedup epoch).current_version_infos := by
  cases dedup
  · simpa [advance_versions] using writerConserved_advance_core m mask hw
  · by_cases h : mask \ lookupEntry m.previous_advancers ⟨ctx, epoch⟩ = ∅
    · simpa [advance_versions, h] using hw
    · simpa [advance_versions, h] using
        writerConserved_advance_core m
          (mask \ lookupEntry m.previous_advancers ⟨ctx, epoch⟩) hw

theorem writerConserved_invalidate (m : VersionManager) (mask : FieldMask)
    (hw : WriterConserved m.current_version_infos) :
    WriterConserved
      (invalidate_version_infos m mask).current_version_infos := by
  intro p q hp hq f hfp hfq
  obtain ⟨a, ha, rfl⟩ := mem_filter_map_entries hp
  obtain ⟨b, hb, rfl⟩ := mem_filter_map_entries hq
  exact hw a b ha hb f (Finset.mem_sdiff.mp hfp).1 (Finset.mem_sdiff.mp hfq).1

theorem writerConserved_reachable {m : VersionManager} (h : VMReachable m) :
    WriterConserved m.current_version_infos := by
  induction h with
  | init =>
    intro p q hp hq f hfp hfq
    simp [initial_manager] at hp
  | step _ hs ih =>
    cases hs with
    | record mask => exact writerConserved_record _ mask ih
    | recordPathOnly mask => exact writerConserved_record_path _ mask ih
    | advance ctx mask dedup epoch =>
      exact writerConserved_advance_versions _ ctx mask dedup epoch ih
    | invalidate mask => exact writerConserved_invalidate _ mask ih

/-- C1: version conservation: in every reachable state of the
version-manager state machine, the current-version map never assigns two live
version numbers to the same field — any two current entries whose masks share
a field carry the same version number, so per field at most one version
number is open for write at a time. -/
theorem c1_version_conservation (m : VersionManager) (h : VMReachable m) :
    ∀ p q, p ∈ m.current_version_infos → q ∈ m.current_version_infos →
      ∀ f, f ∈ p.2 → f ∈ q.2 → p.1 = q.1 :=
  writerConserved_reachable h

/-- Witness for C1 on a concrete reachable manager: fields {0, 1} are
versioned, field 0 is advanced, and the conservation theorem applies to the
resulting current entry (2, {0}). -/
theorem c1_version_conservation_witness :
    VMReachable vm_example ∧
    ((2, ({0} : FieldMask)).1 = (2, ({0} : FieldMask)).1) := by
  have h1 : VMReachable (record_current_versions initial_manager {0, 1}).1 :=
    VMReachable.step VMReachable.init (VMStep.record initial_manager {0, 1})
  have hreach : VMReachable vm_example :=
    VMReachable.step h1
      (VMStep.advance (record_current_versions initial_manager {0, 1}).1
        7 {0} true 1)
  exact ⟨hreach,
    c1_version_conservation vm_example hreach (2, {0}) (2, {0})
      (by decide) (by decide) 0 (by decide) (by decide)⟩

theorem abs_of_insert (s : VersioningSet) (k : ℕ) (m : FieldMask) :
    abs_of (s.insert k m) = tagged_insert (abs_of s) k m := by
  obtain ⟨sg, sv, mv, vf⟩ := s
  cases sg
  · simp [VersioningSet.insert, abs_of, tagged_insert]
  · rcases sv with _ | ⟨k0, m0⟩
    · simp [VersioningSet.insert, abs_of, tagged_insert]
    · by_cases h : k0 = k <;>
        simp [VersioningSet.insert, abs_of, tagged_insert, h]

theorem abs_of_erase (s : VersioningSet) (k : ℕ) :
    abs_of (s.erase k) = tagged_erase (abs_of s) k := by
  obtain ⟨sg, sv, mv, vf⟩ := s
  cases sg
  · rcases he : erase_entry mv k with _ | ⟨p, _ | ⟨p2, t⟩⟩ <;>
      simp [VersioningSet.erase, abs_of, tagged_erase, he]
  · rcases sv with _ | ⟨k0, m0⟩
    · simp [VersioningSet.erase, abs_of, tagged_erase]
    · by_cases h : k0 = k <;>
        simp [VersioningSet.erase, abs_of, tagged_erase, h]

theorem abs_of_clear (s : VersioningSet) :
    abs_of (s.clear) = tagged_clear (abs_of s) := rfl

theorem abs_of_apply_op (s : VersioningSet) (op : VersioningSetOp) :
    abs_of (apply_vs_op s op) = apply_tagged_op (abs_of s) op := by
  cases op with
  | ins k m => exact abs_of_insert s k m
  | ers k => exact abs_of_erase s k
  | clr => exact abs_of_clear s

theorem empty_abs (s : VersioningSet) :
    s.empty = tagged_empty (abs_of s) := by
  obtain ⟨sg, sv, mv, vf⟩ := s
  cases sg <;> rcases sv with _ | ⟨k0, m0⟩ <;>
    simp [VersioningSet.empty, abs_of, tagged_empty]

theorem size_abs (s : VersioningSet) :
    s.size = tagged_size (abs_of s) := by
  obtain ⟨sg, sv, mv, vf⟩ := s
  cases sg <;> rcases sv with _ | ⟨k0, m0⟩ <;>
    simp [VersioningSet.size, abs_of, tagged_size]

theorem lookup_abs (s : VersioningSet) (k : ℕ) :
    s.lookup k = tagged_lookup (abs_of s) k := by
  obtain ⟨sg, sv, mv, vf⟩ := s
  cases sg <;> rcases sv with _ | ⟨k0, m0⟩ <;>
    simp [VersioningSet.lookup, abs_of, tagged_lookup]

theorem iterate_abs (s : VersioningSet) :
    s.iterate = tagged_iterate (abs_of s) := by
  obtain ⟨sg, sv, mv, vf⟩ := s
  cases sg <;> rcases sv with _ | ⟨k0, m0⟩ <;>
    simp [VersioningSet.iterate, abs_of, tagged_iterate]

theorem valid_mask_abs (s : VersioningSet) :
    s.get_valid_mask = (abs_of s).valid_fields := rfl

theorem abs_of_foldl (ops : List VersioningSetOp) (s : VersioningSet) :
    abs_of (ops.foldl apply_vs_op s) = ops.foldl apply_tagged_op (abs_of s) := by
  induction ops generalizing s with
  | nil => rfl
  | cons op t ih =>
    rw [List.foldl_cons, List.foldl_cons, ih, abs_of_apply_op]

/-- C8: VersioningSet refinement: for every sequence of insert, erase and
clear operations, the union-typed single-versus-multi layout is
observationally equivalent to the plain tagged variant
{Empty, Single(entry), Many(ordered map)}: the abstraction of the run agrees
with the tagged run, and empty(), size(), operator[], get_valid_mask() and
the begin()/end() iteration sequence all agree with the tagged-variant model
regardless of which layout currently backs the set. -/
theorem c8_versioning_set_refinement (ops : List VersioningSetOp) :
    abs_of (run_vs ops) = run_tagged ops ∧
    (run_vs ops).empty = tagged_empty (run_tagged ops) ∧
    (run_vs ops).size = tagged_size (run_tagged ops) ∧
    (run_vs ops).get_valid_mask = (run_tagged ops).valid_fields ∧
    (run_vs ops).iterate = tagged_iterate (run_tagged ops) ∧
    ∀ k, (run_vs ops).lookup k = tagged_lookup (run_tagged ops) k := by
  have habs : abs_of (run_vs ops) = run_tagged ops := abs_of_foldl ops _
  refine ⟨habs, ?_, ?_, ?_, ?_, fun k => ?_⟩
  · rw [empty_abs, habs]
  · rw [size_abs, habs]
  · rw [valid_mask_abs, habs]
  · rw [iterate_abs, habs]
  · rw [lookup_abs, habs]

/-- Witness for C10 at a one-deep VersionInfo. -/
theorem c10_get_depth_witness :
    version_info_example.get_depth = version_info_example.physical_states.length - 1 ∧
    version_info_example.get_depth_assertion ∧
    (∀ w : VersionInfo, w.physical_states = [] →
      w.get_depth = SIZE_T_CARD - 1) :=
  c10_get_depth version_info_example (by decide)
    (by norm_num [version_info_example, SIZE_T_CARD])
